import Mathlib

/-!
Shallow embedding of the `dive` whammy plugin core (src/src/lib.rs).

Audio samples (`f32` in the source) are modelled as exact rationals `ℚ`;
buffer indices (`usize`) as `ℕ`.  The ring buffer `Vec<f32>` is modelled as a
total function `ℕ → ℚ` together with its length, since every index the code
uses is reduced into `[0, len)` before access.  The per-sample smoothed value
of the `dive` parameter, produced by the external nih-plug smoother via
`self.params.dive.smoothed.next()`, enters the model as a per-sample input.
-/

namespace Whammy

/-- Rust `%` on nonnegative floats: `a - n * trunc (a / n)`, which for
`0 ≤ a` equals `a - n * ⌊a / n⌋`. -/
def qmod (a : ℚ) (n : ℕ) : ℚ := a - (n : ℚ) * ⌊a / (n : ℚ)⌋

/-- Point update of the buffer function, embedding `self.buffer[i] = x`. -/
def writeBuf (f : ℕ → ℚ) (i : ℕ) (x : ℚ) : ℕ → ℚ :=
  fun j => if j = i then x else f j

/-- State of the `Whammy` struct: ring buffer (`buffer`, `bufLen` for
`buffer.len()`), write cursor, envelope table and its cursor. -/
structure WhammyState where
  buffer : ℕ → ℚ
  bufLen : ℕ
  write_pos : ℕ
  envelope : ℕ → ℚ
  envLen : ℕ
  envelope_pos : ℕ

/-- Envelope table built in `Whammy::default`: 22050 rising steps of
`1/22050` starting at 0, then 22050 falling steps. -/
def envelopeTable (i : ℕ) : ℚ :=
  if i < 22050 then (i : ℚ) / 22050
  else 1 - ((i : ℚ) - 22050 + 1) / 22050

/-- `Whammy::default()`: a zeroed ring buffer of `44100 * 3` samples, both
cursors at 0, and the 44100-entry triangular envelope. -/
def defaultWhammy : WhammyState :=
  { buffer := fun _ => 0
    bufLen := 44100 * 3
    write_pos := 0
    envelope := envelopeTable
    envLen := 44100
    envelope_pos := 0 }

/-- Line 160: `self.write_pos as f32 - self.params.dive.smoothed.next() * 1000.`,
with the smoothed dive value passed in. -/
def delayedRead (write_pos : ℕ) (dive : ℚ) : ℚ :=
  (write_pos : ℚ) - dive * 1000

/-- Lines 161-165: wrap the delayed read position into the buffer,
`buffer.len() + delayed_read` when negative, else `delayed_read % buffer.len()`. -/
def wrapPos (delayed_read : ℚ) (len : ℕ) : ℚ :=
  if delayed_read < 0 then (len : ℚ) + delayed_read
  else qmod delayed_read len

/-- `Whammy::interpolate` (lines 180-188): truncate the fractional index,
take the next index mod `buffer.len()`, and return the unweighted average
`(low_sample + high_sample) * 0.5`.  (`as usize` on a nonnegative float is
`Int.toNat ∘ Int.floor`; on a negative one it saturates to 0, which
`Int.toNat` also gives.) -/
def interpolate (f_idx : ℚ) (buffer : ℕ → ℚ) (len : ℕ) : ℚ :=
  let low_idx := (⌊f_idx⌋).toNat
  let high_idx := (low_idx + 1) % len
  (buffer low_idx + buffer high_idx) * (1 / 2)

/-- Interpolation policy as the spec words it (section 4.4):
`output = buffer[lowIndex] + frac × (buffer[highIndex] − buffer[lowIndex])`.
Stated only to compare against the source's `interpolate`. -/
def weightedInterpolate (f_idx : ℚ) (buffer : ℕ → ℚ) (len : ℕ) : ℚ :=
  let low_idx := (⌊f_idx⌋).toNat
  let high_idx := (low_idx + 1) % len
  let frac := f_idx - (low_idx : ℚ)
  buffer low_idx + frac * (buffer high_idx - buffer low_idx)

/-- Body of the inner per-channel-sample loop of `Whammy::process`
(lines 157-172): write the input at `write_pos`, compute and wrap the
delayed read position, interpolate, emit, advance both cursors. -/
def processSample (st : WhammyState) (input : ℚ) (dive : ℚ) :
    WhammyState × ℚ :=
  let buf := writeBuf st.buffer st.write_pos input
  let wrapped := wrapPos (delayedRead st.write_pos dive) st.bufLen
  let out := interpolate wrapped buf st.bufLen
  ({ st with
      buffer := buf
      write_pos := (st.write_pos + 1) % st.bufLen
      envelope_pos := (st.envelope_pos + 1) % st.envLen }, out)

/-- `Whammy::process` over a flattened block: a list of
(input sample, smoothed dive value) pairs, returning the final state and
the output samples in order. -/
def processList (st : WhammyState) : List (ℚ × ℚ) → WhammyState × List ℚ
  | [] => (st, [])
  | (i, d) :: rest =>
    let r := processSample st i d
    let rr := processList r.1 rest
    (rr.1, r.2 :: rr.2)

/-- `Plugin::initialize` (lines 129-139): performs no state change and
in particular ignores the host-negotiated sample rate. -/
def initEngine (st : WhammyState) (_sampleRate : ℚ) : WhammyState := st

/-- `Plugin::reset` (lines 141-144): empty body, no state change. -/
def reset (st : WhammyState) : WhammyState := st

/-- Line 170: `self.write_pos = (self.write_pos + 1) % self.buffer.len()`. -/
def advanceWrite (wp len : ℕ) : ℕ := (wp + 1) % len

/-- Write cursor after `k` consecutive writes. -/
def writeIter (wp len : ℕ) : ℕ → ℕ
  | 0 => wp
  | k + 1 => advanceWrite (writeIter wp len k) len

/-- Modelled from the spec: the smoothing styles of section 4.2 (the
parameter smoother itself is nih-plug library code, not part of src/).
`logarithmic r` carries the fixed per-sample ratio by which the remaining
distance to the target shrinks. -/
inductive SmoothingStyle where
  | linear : SmoothingStyle
  | logarithmic : ℚ → SmoothingStyle

/-- Modelled from the spec: state of a `SmoothedParameter` (section 3).
`step` is the fixed linear increment computed when a target is set;
`stepsLeft` counts the remaining samples of the ramp. -/
structure SmoothedParameter where
  style : SmoothingStyle
  rampDuration : ℕ
  current : ℚ
  target : ℚ
  step : ℚ
  stepsLeft : ℕ

/-- Modelled from the spec: `setTarget(value)` restarts convergence from the
current value toward the new target (section 4.2); with a zero ramp duration
smoothing is disabled and the value snaps to the target. -/
def setTarget (p : SmoothedParameter) (t : ℚ) : SmoothedParameter :=
  if p.rampDuration = 0 then
    { p with target := t, current := t, step := 0, stepsLeft := 0 }
  else
    { p with target := t, step := (t - p.current) / (p.rampDuration : ℚ),
             stepsLeft := p.rampDuration }

/-- Modelled from the spec: `next()` advances the smoother by one sample
(section 4.2).  Linear style adds the fixed step; logarithmic style shrinks
the remaining distance by the fixed ratio.  At the last sample of the ramp
the value lands on the target exactly and holds (section 3 invariant:
after `rampDurationSamples` calls the current value equals the target). -/
def nextSmoothed (p : SmoothedParameter) : SmoothedParameter :=
  match p.stepsLeft, p.style with
  | 0, _ => { p with current := p.target }
  | 1, _ => { p with current := p.target, stepsLeft := 0 }
  | n + 2, SmoothingStyle.linear =>
      { p with current := p.current + p.step, stepsLeft := n + 1 }
  | n + 2, SmoothingStyle.logarithmic r =>
      { p with current := p.target - r * (p.target - p.current), stepsLeft := n + 1 }

/-- Smoother state after `k` calls to `next()`. -/
def iterSmoothed (p : SmoothedParameter) : ℕ → SmoothedParameter
  | 0 => p
  | k + 1 => iterSmoothed (nextSmoothed p) k

/-- Smoothed value emitted after `k` calls to `next()`. -/
def smoothedAt (p : SmoothedParameter) (k : ℕ) : ℚ := (iterSmoothed p k).current

/-- A freshly constructed smoother resting at value `s`. -/
def initialSmoother (style : SmoothingStyle) (d : ℕ) (s : ℚ) : SmoothedParameter :=
  { style := style, rampDuration := d, current := s, target := s, step := 0,
    stepsLeft := 0 }

/-- Invariant of a smoother ramping upward: the current value never exceeds
the target, a linear ramp has a nonnegative step that lands exactly on the
target, and a logarithmic ratio lies in `[0, 1]`. -/
def ValidBelow (p : SmoothedParameter) : Prop :=
  p.current ≤ p.target ∧
  match p.style with
  | SmoothingStyle.linear =>
      0 ≤ p.step ∧ p.current + (p.stepsLeft : ℚ) * p.step = p.target
  | SmoothingStyle.logarithmic r => 0 ≤ r ∧ r ≤ 1

/-- Invariant of a smoother ramping downward, mirror of `ValidBelow`. -/
def ValidAbove (p : SmoothedParameter) : Prop :=
  p.target ≤ p.current ∧
  match p.style with
  | SmoothingStyle.linear =>
      p.step ≤ 0 ∧ p.current + (p.stepsLeft : ℚ) * p.step = p.target
  | SmoothingStyle.logarithmic r => 0 ≤ r ∧ r ≤ 1

/-- Input stream of the end-to-end impulse experiment of spec section 8:
1.0 at sample 0, 0 elsewhere. -/
def impulseIn (n : ℕ) : ℚ := if n = 0 then 1 else 0

/-- Engine state for the impulse experiment: freshly constructed with a
44100-sample-capacity ring buffer, as the spec's test posits. -/
def c5Init : WhammyState :=
  { buffer := fun _ => 0
    bufLen := 44100
    write_pos := 0
    envelope := envelopeTable
    envLen := 44100
    envelope_pos := 0 }

/-- Engine state after the first `n` samples of the impulse experiment, with
the smoothed dive value held at `1/10` so that `dive * 1000` is the fixed
100-sample delay length. -/
def c5StateAt : ℕ → WhammyState
  | 0 => c5Init
  | n + 1 => (processSample (c5StateAt n) (impulseIn n) (1 / 10)).1

/-- Output sample `n` of the impulse experiment. -/
def c5Out (n : ℕ) : ℚ := (processSample (c5StateAt n) (impulseIn n) (1 / 10)).2

end Whammy

namespace Whammy

lemma qmod_eq_fract (a : ℚ) (n : ℕ) (hn : 0 < n) :
    qmod a n = (n : ℚ) * Int.fract (a / (n : ℚ)) := by
  have hn' : ((n : ℚ)) ≠ 0 := by positivity
  unfold qmod Int.fract
  field_simp

lemma qmod_nonneg (a : ℚ) (n : ℕ) (hn : 0 < n) : 0 ≤ qmod a n := by
  rw [qmod_eq_fract a n hn]
  have : (0 : ℚ) < (n : ℚ) := by exact_mod_cast hn
  exact mul_nonneg (le_of_lt this) (Int.fract_nonneg _)

lemma qmod_lt (a : ℚ) (n : ℕ) (hn : 0 < n) : qmod a n < (n : ℚ) := by
  rw [qmod_eq_fract a n hn]
  have hpos : (0 : ℚ) < (n : ℚ) := by exact_mod_cast hn
  calc (n : ℚ) * Int.fract (a / (n : ℚ)) < (n : ℚ) * 1 :=
        mul_lt_mul_of_pos_left (Int.fract_lt_one _) hpos
    _ = (n : ℚ) := mul_one _

lemma floor_1000_div : ⌊(1000 : ℚ) / 132300⌋ = 0 := by
  rw [Int.floor_eq_zero_iff]
  constructor <;> norm_num

lemma writeIter_eq (wp len k : ℕ) (hwp : wp < len) :
    writeIter wp len k = (wp + k) % len := by
  induction k with
  | zero => simp [writeIter, Nat.mod_eq_of_lt hwp]
  | succ k ih =>
      show advanceWrite (writeIter wp len k) len = (wp + (k + 1)) % len
      rw [ih]
      unfold advanceWrite
      rw [Nat.mod_add_mod, Nat.add_assoc]

lemma processSample_env (st : WhammyState) (e : ℕ → ℚ) (i d : ℚ) :
    processSample { st with envelope := e } i d =
      ({ (processSample st i d).1 with envelope := e },
        (processSample st i d).2) := rfl

lemma processList_env (inputs : List (ℚ × ℚ)) :
    ∀ st : WhammyState, ∀ e : ℕ → ℚ,
      processList { st with envelope := e } inputs =
        ({ (processList st inputs).1 with envelope := e },
          (processList st inputs).2) := by
  induction inputs with
  | nil => intro st e; rfl
  | cons p rest ih =>
      intro st e
      obtain ⟨i, d⟩ := p
      show processList { st with envelope := e } ((i, d) :: rest) = _
      rw [processList, processSample_env, processList, ih]

lemma c5_invariant : ∀ n : ℕ, n ≤ 100 →
    (c5StateAt n).write_pos = n ∧ (c5StateAt n).bufLen = 44100 ∧
    ∀ j, (c5StateAt n).buffer j = if j = 0 ∧ 1 ≤ n then 1 else 0 := by
  intro n
  induction n with
  | zero =>
      intro _
      refine ⟨rfl, rfl, fun j => ?_⟩
      simp [c5StateAt, c5Init]
  | succ n ih =>
      intro hn
      obtain ⟨hwp, hlen, hbuf⟩ := ih (by omega)
      have hstep : c5StateAt (n + 1) =
          (processSample (c5StateAt n) (impulseIn n) (1 / 10)).1 := rfl
      refine ⟨?_, ?_, ?_⟩
      · rw [hstep]
        show ((c5StateAt n).write_pos + 1) % (c5StateAt n).bufLen = n + 1
        rw [hwp, hlen]
        exact Nat.mod_eq_of_lt (by omega)
      · rw [hstep]; exact hlen
      · intro j
        rw [hstep]
        show writeBuf (c5StateAt n).buffer (c5StateAt n).write_pos (impulseIn n) j
          = if j = 0 ∧ 1 ≤ n + 1 then 1 else 0
        rw [hwp]
        unfold writeBuf impulseIn
        rw [hbuf j]
        split_ifs <;> first | rfl | omega

lemma nextSmoothed_target (p : SmoothedParameter) :
    (nextSmoothed p).target = p.target := by
  unfold nextSmoothed
  rcases p with ⟨style, d, c, t, s, sl⟩
  match sl, style with
  | 0, _ => rfl
  | 1, _ => rfl
  | n + 2, SmoothingStyle.linear => rfl
  | n + 2, SmoothingStyle.logarithmic r => rfl

lemma iterSmoothed_succ (k : ℕ) :
    ∀ p : SmoothedParameter,
      iterSmoothed p (k + 1) = nextSmoothed (iterSmoothed p k) := by
  induction k with
  | zero => intro p; rfl
  | succ k ih =>
      intro p
      show iterSmoothed (nextSmoothed p) (k + 1) = _
      rw [ih (nextSmoothed p)]
      rfl

lemma iterSmoothed_target (p : SmoothedParameter) (k : ℕ) :
    (iterSmoothed p k).target = p.target := by
  induction k with
  | zero => rfl
  | succ k ih => rw [iterSmoothed_succ, nextSmoothed_target, ih]

lemma nextSmoothed_props (p : SmoothedParameter) :
    (nextSmoothed p).stepsLeft = p.stepsLeft - 1 ∧
    ((nextSmoothed p).stepsLeft = 0 →
      (nextSmoothed p).current = (nextSmoothed p).target) := by
  unfold nextSmoothed
  rcases p with ⟨style, d, c, t, s, sl⟩
  match sl, style with
  | 0, _ => exact ⟨rfl, fun _ => rfl⟩
  | 1, _ => exact ⟨rfl, fun _ => rfl⟩
  | n + 2, SmoothingStyle.linear => exact ⟨rfl, fun h => absurd h (Nat.succ_ne_zero n)⟩
  | n + 2, SmoothingStyle.logarithmic r => exact ⟨rfl, fun h => absurd h (Nat.succ_ne_zero n)⟩

lemma smoothed_reaches_target : ∀ k : ℕ, ∀ p : SmoothedParameter,
    p.stepsLeft ≤ k → (p.stepsLeft = 0 → p.current = p.target) →
    (iterSmoothed p k).current = p.target := by
  intro k
  induction k with
  | zero =>
      intro p hsl h0
      exact h0 (Nat.le_zero.mp hsl)
  | succ k ih =>
      intro p hsl h0
      show (iterSmoothed (nextSmoothed p) k).current = p.target
      rw [← nextSmoothed_target p]
      obtain ⟨hsl', hland⟩ := nextSmoothed_props p
      exact ih (nextSmoothed p) (by omega) hland

lemma validBelow_next (p : SmoothedParameter) (h : ValidBelow p) :
    ValidBelow (nextSmoothed p) ∧ p.current ≤ (nextSmoothed p).current := by
  rcases p with ⟨style, d, c, t, s, sl⟩
  rcases sl with _ | sl
  · cases style with
    | linear =>
        obtain ⟨hct, hs, heq⟩ := h
        exact ⟨⟨le_refl t, hs, by norm_num [nextSmoothed]⟩, hct⟩
    | logarithmic r =>
        obtain ⟨hct, hr⟩ := h
        exact ⟨⟨le_refl t, hr⟩, hct⟩
  rcases sl with _ | n
  · cases style with
    | linear =>
        obtain ⟨hct, hs, heq⟩ := h
        exact ⟨⟨le_refl t, hs, by norm_num [nextSmoothed]⟩, hct⟩
    | logarithmic r =>
        obtain ⟨hct, hr⟩ := h
        exact ⟨⟨le_refl t, hr⟩, hct⟩
  · cases style with
    | linear =>
        obtain ⟨hct, hs, heq⟩ := h
        have hn : (0 : ℚ) ≤ (n : ℚ) * s := mul_nonneg (Nat.cast_nonneg n) hs
        have heq' : c + ((n : ℚ) + 2) * s = t := by push_cast at heq; linarith [heq]
        refine ⟨⟨?_, hs, ?_⟩, ?_⟩
        · show c + s ≤ t
          nlinarith
        · show c + s + ((n + 1 : ℕ) : ℚ) * s = t
          push_cast
          linarith
        · show c ≤ c + s
          linarith
    | logarithmic r =>
        obtain ⟨hct, hr0, hr1⟩ := h
        refine ⟨⟨?_, hr0, hr1⟩, ?_⟩
        · show t - r * (t - c) ≤ t
          nlinarith
        · show c ≤ t - r * (t - c)
          nlinarith

lemma validAbove_next (p : SmoothedParameter) (h : ValidAbove p) :
    ValidAbove (nextSmoothed p) ∧ (nextSmoothed p).current ≤ p.current := by
  rcases p with ⟨style, d, c, t, s, sl⟩
  rcases sl with _ | sl
  · cases style with
    | linear =>
        obtain ⟨hct, hs, heq⟩ := h
        exact ⟨⟨le_refl t, hs, by norm_num [nextSmoothed]⟩, hct⟩
    | logarithmic r =>
        obtain ⟨hct, hr⟩ := h
        exact ⟨⟨le_refl t, hr⟩, hct⟩
  rcases sl with _ | n
  · cases style with
    | linear =>
        obtain ⟨hct, hs, heq⟩ := h
        exact ⟨⟨le_refl t, hs, by norm_num [nextSmoothed]⟩, hct⟩
    | logarithmic r =>
        obtain ⟨hct, hr⟩ := h
        exact ⟨⟨le_refl t, hr⟩, hct⟩
  · cases style with
    | linear =>
        obtain ⟨hct, hs, heq⟩ := h
        have hn : (n : ℚ) * s ≤ 0 :=
          mul_nonpos_of_nonneg_of_nonpos (Nat.cast_nonneg n) hs
        have heq' : c + ((n : ℚ) + 2) * s = t := by push_cast at heq; linarith [heq]
        refine ⟨⟨?_, hs, ?_⟩, ?_⟩
        · show t ≤ c + s
          nlinarith
        · show c + s + ((n + 1 : ℕ) : ℚ) * s = t
          push_cast
          linarith
        · show c + s ≤ c
          linarith
    | logarithmic r =>
        obtain ⟨hct, hr0, hr1⟩ := h
        refine ⟨⟨?_, hr0, hr1⟩, ?_⟩
        · show t ≤ t - r * (t - c)
          nlinarith
        · show t - r * (t - c) ≤ c
          nlinarith

lemma validBelow_iter (p : SmoothedParameter) (h : ValidBelow p) (k : ℕ) :
    ValidBelow (iterSmoothed p k) := by
  induction k with
  | zero => exact h
  | succ k ih => rw [iterSmoothed_succ]; exact (validBelow_next _ ih).1

lemma validAbove_iter (p : SmoothedParameter) (h : ValidAbove p) (k : ℕ) :
    ValidAbove (iterSmoothed p k) := by
  induction k with
  | zero => exact h
  | succ k ih => rw [iterSmoothed_succ]; exact (validAbove_next _ ih).1

/-- C1: the claim says `interpolate` implements the weighted blend
`(1 - f) * buffer[k] + f * buffer[(k+1) % capacity]` within 1e-6.  The source
instead averages the two neighbours, ignoring the fraction: at read position
`p = 0` (so `k = 0`, `f = 0`) on a buffer with `buffer[1] = 1` and all other
entries 0, the code returns `1/2` while the weighted policy returns `0`, a
discrepancy far beyond the 1e-6 tolerance. -/
theorem interpolate_ignores_frac :
    interpolate 0 (fun i => if i = 1 then 1 else 0) (44100 * 3) = 1 / 2 ∧
    weightedInterpolate 0 (fun i => if i = 1 then 1 else 0) (44100 * 3) = 0 ∧
    ¬ |interpolate 0 (fun i => if i = 1 then 1 else 0) (44100 * 3) -
        weightedInterpolate 0 (fun i => if i = 1 then 1 else 0) (44100 * 3)| ≤
      1 / 1000000 := by
  norm_num [interpolate, weightedInterpolate]
  rw [abs_of_pos (show (0 : ℚ) < 1 / 2 by norm_num)]
  norm_num

/-- C2: the claim says the read position computed in `process` never lies
ahead of the write index, with out-of-range delay lengths clamped.  In the
source, for the in-range smoothed dive value `-1` at the reachable cursor
`write_pos = 0`, the read position is `0 - (-1) * 1000 = 1000`, strictly ahead
of the write index, and no clamping occurs anywhere on the path. -/
theorem read_ahead_of_write_unclamped :
    delayedRead defaultWhammy.write_pos (-1) = 1000 ∧
    wrapPos (delayedRead defaultWhammy.write_pos (-1)) defaultWhammy.bufLen = 1000 ∧
    (defaultWhammy.write_pos : ℚ) <
      wrapPos (delayedRead defaultWhammy.write_pos (-1)) defaultWhammy.bufLen := by
  have h1 : delayedRead defaultWhammy.write_pos (-1) = 1000 := by
    norm_num [delayedRead, defaultWhammy]
  have h2 : wrapPos (delayedRead defaultWhammy.write_pos (-1)) defaultWhammy.bufLen
      = 1000 := by
    rw [h1]
    show wrapPos 1000 defaultWhammy.bufLen = 1000
    have : defaultWhammy.bufLen = 132300 := rfl
    rw [this]
    unfold wrapPos qmod
    norm_num [floor_1000_div]
  refine ⟨h1, h2, ?_⟩
  rw [h2]
  norm_num [defaultWhammy]

/-- C3: the claim says the ring buffer capacity after initialization equals
`sampleRate * maxDelaySeconds`.  In the source the capacity is the
compile-time constant `44100 * 3` fixed in `Default::default`, and
`Plugin::initialize` changes nothing: for a host sample rate of 48000 the
capacity stays 132300 instead of the required 144000. -/
theorem capacity_ignores_sample_rate :
    defaultWhammy.bufLen = 44100 * 3 ∧
    (∀ sr : ℚ, (initEngine defaultWhammy sr).bufLen = defaultWhammy.bufLen) ∧
    (initEngine defaultWhammy 48000).bufLen ≠ 48000 * 3 := by
  refine ⟨rfl, fun sr => rfl, ?_⟩
  show (132300 : ℕ) ≠ 48000 * 3
  norm_num

/-- C4: the claim says `reset` zeroes the ring buffer and restores the
cursors to their default state, so that processing after `reset` matches a
freshly constructed engine.  The source's `reset` has an empty body: after
processing one sample (input 1, smoothed dive 0) and resetting, the buffer
still holds 1 at index 0 and the write cursor is still 1, while the fresh
engine has a zeroed buffer and write cursor 0. -/
theorem reset_without_restoring :
    reset (processSample defaultWhammy 1 0).1 = (processSample defaultWhammy 1 0).1 ∧
    (reset (processSample defaultWhammy 1 0).1).write_pos = 1 ∧
    (reset (processSample defaultWhammy 1 0).1).buffer 0 = 1 ∧
    defaultWhammy.write_pos = 0 ∧
    defaultWhammy.buffer 0 = 0 := by
  refine ⟨rfl, ?_, ?_, rfl, rfl⟩
  · show ((0 + 1) % (44100 * 3) : ℕ) = 1
    norm_num
  · show writeBuf defaultWhammy.buffer 0 1 0 = 1
    norm_num [writeBuf]

/-- C5: the claim expects the end-to-end impulse test (44100-sample buffer,
delay held at exactly 100 samples, smoothing disabled) to output 1.0 at index
100 and 0 everywhere else.  The source's unweighted-average interpolation
instead yields 1/2 at output index 100 and also 1/2 at index 99 (where the
two-point average straddles the impulse across the wrap). -/
theorem impulse_output_half :
    c5Out 99 = 1 / 2 ∧ c5Out 100 = 1 / 2 ∧ c5Out 100 ≠ 1 := by
  obtain ⟨hwp99, hlen99, hbuf99⟩ := c5_invariant 99 (by norm_num)
  obtain ⟨hwp100, hlen100, hbuf100⟩ := c5_invariant 100 (by norm_num)
  have h99 : c5Out 99 = 1 / 2 := by
    show (processSample (c5StateAt 99) (impulseIn 99) (1 / 10)).2 = 1 / 2
    have hdr : delayedRead 99 (1 / 10) = -1 := by norm_num [delayedRead]
    have hwrap : wrapPos (delayedRead 99 (1 / 10)) 44100 = 44099 := by
      rw [hdr]
      unfold wrapPos
      rw [if_pos (by norm_num)]
      norm_num
    have hfli : ⌊(44099 : ℚ)⌋ = 44099 := by norm_num
    have hfl : (⌊(44099 : ℚ)⌋).toNat = 44099 := by rw [hfli]; rfl
    simp only [processSample]
    rw [hwp99, hlen99, hwrap]
    simp only [interpolate]
    rw [hfl]
    norm_num
    simp only [writeBuf]
    norm_num [hbuf99, impulseIn]
  have h100 : c5Out 100 = 1 / 2 := by
    show (processSample (c5StateAt 100) (impulseIn 100) (1 / 10)).2 = 1 / 2
    have hdr : delayedRead 100 (1 / 10) = 0 := by norm_num [delayedRead]
    have hwrap : wrapPos (delayedRead 100 (1 / 10)) 44100 = 0 := by
      rw [hdr]
      unfold wrapPos qmod
      norm_num
    have hfl : (⌊(0 : ℚ)⌋).toNat = 0 := by
      rw [Int.floor_zero]; rfl
    simp only [processSample]
    rw [hwp100, hlen100, hwrap]
    simp only [interpolate]
    rw [hfl]
    norm_num
    simp only [writeBuf]
    norm_num [hbuf100, impulseIn]
  exact ⟨h99, h100, by rw [h100]; norm_num⟩

/-- C6: with the smoothed dive value in the declared range `[-1, 0]` and the
write cursor inside the buffer, every buffer index used on the per-sample
path — the write index, the truncated low read index and the wrapped high
read index — lies in `[0, capacity)`, so no out-of-bounds access occurs. -/
theorem indices_in_bounds (wp : ℕ) (dive : ℚ)
    (hwp : wp < defaultWhammy.bufLen) (h1 : -1 ≤ dive) (h2 : dive ≤ 0) :
    wp < defaultWhammy.bufLen ∧
    (⌊wrapPos (delayedRead wp dive) defaultWhammy.bufLen⌋).toNat <
      defaultWhammy.bufLen ∧
    ((⌊wrapPos (delayedRead wp dive) defaultWhammy.bufLen⌋).toNat + 1) %
      defaultWhammy.bufLen < defaultWhammy.bufLen := by
  have hlen : defaultWhammy.bufLen = 132300 := rfl
  have hlenpos : 0 < defaultWhammy.bufLen := by rw [hlen]; norm_num
  have hdr : 0 ≤ delayedRead wp dive := by
    have hwpn : (0 : ℚ) ≤ (wp : ℚ) := Nat.cast_nonneg wp
    unfold delayedRead
    nlinarith
  have hwrap : wrapPos (delayedRead wp dive) defaultWhammy.bufLen =
      qmod (delayedRead wp dive) defaultWhammy.bufLen := by
    unfold wrapPos
    rw [if_neg (not_lt.mpr hdr)]
  have hq0 : 0 ≤ qmod (delayedRead wp dive) defaultWhammy.bufLen :=
    qmod_nonneg _ _ hlenpos
  have hq1 : qmod (delayedRead wp dive) defaultWhammy.bufLen <
      (defaultWhammy.bufLen : ℚ) := qmod_lt _ _ hlenpos
  have hfl0 : 0 ≤ ⌊wrapPos (delayedRead wp dive) defaultWhammy.bufLen⌋ := by
    rw [hwrap]; exact Int.floor_nonneg.mpr hq0
  have hfl1 : ⌊wrapPos (delayedRead wp dive) defaultWhammy.bufLen⌋ <
      (defaultWhammy.bufLen : ℤ) := by
    rw [hwrap]
    apply Int.floor_lt.mpr
    exact_mod_cast hq1
  refine ⟨hwp, ?_, Nat.mod_lt _ hlenpos⟩
  omega

theorem indices_in_bounds_witness :
    (7 < defaultWhammy.bufLen ∧ (-1 : ℚ) ≤ -1/2 ∧ (-1/2 : ℚ) ≤ 0) ∧
    (7 < defaultWhammy.bufLen ∧
     (⌊wrapPos (delayedRead 7 (-1/2)) defaultWhammy.bufLen⌋).toNat <
       defaultWhammy.bufLen ∧
     ((⌊wrapPos (delayedRead 7 (-1/2)) defaultWhammy.bufLen⌋).toNat + 1) %
       defaultWhammy.bufLen < defaultWhammy.bufLen) := by
  refine ⟨⟨?_, by norm_num, by norm_num⟩, ?_⟩
  · show (7 : ℕ) < 132300; norm_num
  · exact indices_in_bounds 7 (-1/2) (by show (7:ℕ) < 132300; norm_num)
      (by norm_num) (by norm_num)

/-- C7: for every sequence of writes the write index stays in
`[0, capacity)`, advances by exactly 1 modulo the capacity on each write,
returns to its start after exactly `capacity` writes, and at no earlier
positive count, hence cycles with exact period `capacity`. -/
theorem write_index_cycles (wp len k : ℕ) (hlen : 0 < len) (hwp : wp < len) :
    writeIter wp len k = (wp + k) % len ∧
    writeIter wp len k < len ∧
    writeIter wp len len = wp ∧
    (0 < k → k < len → writeIter wp len k ≠ wp) := by
  refine ⟨writeIter_eq wp len k hwp, ?_, ?_, ?_⟩
  · rw [writeIter_eq wp len k hwp]; exact Nat.mod_lt _ hlen
  · rw [writeIter_eq wp len len hwp, Nat.add_mod_right, Nat.mod_eq_of_lt hwp]
  · intro hk hkl
    rw [writeIter_eq wp len k hwp]
    rcases Nat.lt_or_ge (wp + k) len with h | h
    · rw [Nat.mod_eq_of_lt h]; omega
    · rw [Nat.mod_eq_sub_mod h, Nat.mod_eq_of_lt (by omega)]; omega

theorem write_index_cycles_witness :
    (0 < 5 ∧ 2 < 5) ∧
    (writeIter 2 5 3 = (2 + 3) % 5 ∧ writeIter 2 5 3 < 5 ∧
     writeIter 2 5 5 = 2 ∧ (0 < 3 → 3 < 5 → writeIter 2 5 3 ≠ 2)) :=
  ⟨by norm_num, write_index_cycles 2 5 3 (by norm_num) (by norm_num)⟩

/-- C8 (smoother modelled from the spec, see `SmoothedParameter`): for either
smoothing style — logarithmic with ratio in `[0, 1]` — a smoother started at
`s` and ramped toward a constant target `t` reaches `t` exactly (hence within
1e-6) once the ramp duration has elapsed, and the per-sample values are
monotone in the direction of the target with no overshoot. -/
theorem smoother_converges_monotone (style : SmoothingStyle) (d : ℕ) (s t : ℚ)
    (k : ℕ)
    (hlog : ∀ r, style = SmoothingStyle.logarithmic r → 0 ≤ r ∧ r ≤ 1) :
    smoothedAt (setTarget (initialSmoother style d s) t) d = t ∧
    |smoothedAt (setTarget (initialSmoother style d s) t) d - t| ≤ 1 / 1000000 ∧
    (s ≤ t →
      smoothedAt (setTarget (initialSmoother style d s) t) k ≤
        smoothedAt (setTarget (initialSmoother style d s) t) (k + 1) ∧
      smoothedAt (setTarget (initialSmoother style d s) t) k ≤ t) ∧
    (t ≤ s →
      smoothedAt (setTarget (initialSmoother style d s) t) (k + 1) ≤
        smoothedAt (setTarget (initialSmoother style d s) t) k ∧
      t ≤ smoothedAt (setTarget (initialSmoother style d s) t) k) := by
  have hrep : setTarget (initialSmoother style d s) t =
      if d = 0 then
        { style := style, rampDuration := d, current := t, target := t,
          step := 0, stepsLeft := 0 }
      else
        { style := style, rampDuration := d, current := s, target := t,
          step := (t - s) / (d : ℚ), stepsLeft := d } := by
    by_cases hd : d = 0 <;> simp [setTarget, initialSmoother, hd]
  have htar : (setTarget (initialSmoother style d s) t).target = t := by
    rw [hrep]; split <;> rfl
  have hconv : smoothedAt (setTarget (initialSmoother style d s) t) d = t := by
    by_cases hd : d = 0
    · subst hd
      rw [hrep, if_pos rfl]
      rfl
    · rw [hrep, if_neg hd]
      show (iterSmoothed _ d).current = t
      exact smoothed_reaches_target d _ (le_refl d) (fun h => absurd h hd)
  have hvb : s ≤ t → ValidBelow (setTarget (initialSmoother style d s) t) := by
    intro hst
    by_cases hd : d = 0
    · rw [hrep, if_pos hd]
      cases style with
      | linear => exact ⟨le_refl t, le_refl 0, by norm_num⟩
      | logarithmic r => exact ⟨le_refl t, hlog r rfl⟩
    · rw [hrep, if_neg hd]
      have hdpos : (0 : ℚ) < (d : ℚ) := by
        exact_mod_cast Nat.pos_of_ne_zero hd
      cases style with
      | linear =>
          refine ⟨hst, div_nonneg (by linarith) (le_of_lt hdpos), ?_⟩
          show s + (d : ℚ) * ((t - s) / (d : ℚ)) = t
          field_simp
      | logarithmic r => exact ⟨hst, hlog r rfl⟩
  have hva : t ≤ s → ValidAbove (setTarget (initialSmoother style d s) t) := by
    intro hts
    by_cases hd : d = 0
    · rw [hrep, if_pos hd]
      cases style with
      | linear => exact ⟨le_refl t, le_refl 0, by norm_num⟩
      | logarithmic r => exact ⟨le_refl t, hlog r rfl⟩
    · rw [hrep, if_neg hd]
      have hdpos : (0 : ℚ) < (d : ℚ) := by
        exact_mod_cast Nat.pos_of_ne_zero hd
      cases style with
      | linear =>
          refine ⟨hts, div_nonpos_of_nonpos_of_nonneg (by linarith) (le_of_lt hdpos), ?_⟩
          show s + (d : ℚ) * ((t - s) / (d : ℚ)) = t
          field_simp
      | logarithmic r => exact ⟨hts, hlog r rfl⟩
  refine ⟨hconv, by rw [hconv, sub_self, abs_zero]; norm_num, ?_, ?_⟩
  · intro hst
    have hiter := validBelow_iter _ (hvb hst) k
    constructor
    · show (iterSmoothed _ k).current ≤ (iterSmoothed _ (k + 1)).current
      rw [iterSmoothed_succ]
      exact (validBelow_next _ hiter).2
    · have hb := hiter.1
      rw [iterSmoothed_target, htar] at hb
      exact hb
  · intro hts
    have hiter := validAbove_iter _ (hva hts) k
    constructor
    · show (iterSmoothed _ (k + 1)).current ≤ (iterSmoothed _ k).current
      rw [iterSmoothed_succ]
      exact (validAbove_next _ hiter).2
    · have hb := hiter.1
      rw [iterSmoothed_target, htar] at hb
      exact hb

theorem smoother_converges_monotone_witness :
    (∀ r, SmoothingStyle.linear = SmoothingStyle.logarithmic r → 0 ≤ r ∧ r ≤ 1) ∧
    (smoothedAt (setTarget (initialSmoother SmoothingStyle.linear 3 0) 1) 3 = 1 ∧
     |smoothedAt (setTarget (initialSmoother SmoothingStyle.linear 3 0) 1) 3 - 1| ≤
       1 / 1000000 ∧
     ((0 : ℚ) ≤ 1 →
       smoothedAt (setTarget (initialSmoother SmoothingStyle.linear 3 0) 1) 1 ≤
         smoothedAt (setTarget (initialSmoother SmoothingStyle.linear 3 0) 1) (1 + 1) ∧
       smoothedAt (setTarget (initialSmoother SmoothingStyle.linear 3 0) 1) 1 ≤ 1) ∧
     ((1 : ℚ) ≤ 0 →
       smoothedAt (setTarget (initialSmoother SmoothingStyle.linear 3 0) 1) (1 + 1) ≤
         smoothedAt (setTarget (initialSmoother SmoothingStyle.linear 3 0) 1) 1 ∧
       (1 : ℚ) ≤ smoothedAt (setTarget (initialSmoother SmoothingStyle.linear 3 0) 1) 1)) :=
  And.intro (fun r h => nomatch h)
    (smoother_converges_monotone SmoothingStyle.linear 3 0 1 1 (fun r h => nomatch h))

/-- C9: the envelope table's values are never consumed by the audio path:
replacing the envelope contents changes neither the output samples nor the
audio buffer, write cursor or envelope cursor produced by `process`; the
only effect of the envelope is that its cursor advances once per channel
sample, modulo the table length. -/
theorem envelope_not_consumed (st : WhammyState) (e : ℕ → ℚ)
    (inputs : List (ℚ × ℚ)) (i d : ℚ) :
    (processList { st with envelope := e } inputs).2 =
      (processList st inputs).2 ∧
    (processList { st with envelope := e } inputs).1.buffer =
      (processList st inputs).1.buffer ∧
    (processList { st with envelope := e } inputs).1.write_pos =
      (processList st inputs).1.write_pos ∧
    (processList { st with envelope := e } inputs).1.envelope_pos =
      (processList st inputs).1.envelope_pos ∧
    (processSample st i d).1.envelope_pos = (st.envelope_pos + 1) % st.envLen := by
  rw [processList_env]
  exact ⟨rfl, rfl, rfl, rfl, rfl⟩

/-- C10: with the smoothed dive value in the declared range `[-1, 0]` and
any write cursor, the delayed read position `write_pos - dive * 1000` lies in
`[write_pos, write_pos + 1000]` and is nonnegative, so the negative-wrap
branch (`buffer.len() + delayed_read`) of `process` is never taken. -/
theorem delayed_read_never_negative (wp len : ℕ) (dive : ℚ)
    (h1 : -1 ≤ dive) (h2 : dive ≤ 0) :
    (wp : ℚ) ≤ delayedRead wp dive ∧
    delayedRead wp dive ≤ (wp : ℚ) + 1000 ∧
    0 ≤ delayedRead wp dive ∧
    wrapPos (delayedRead wp dive) len = qmod (delayedRead wp dive) len := by
  have hwpn : (0 : ℚ) ≤ (wp : ℚ) := Nat.cast_nonneg wp
  have hstep : 0 ≤ -dive * 1000 := by nlinarith
  have hstep' : -dive * 1000 ≤ 1000 := by nlinarith
  have ha : (wp : ℚ) ≤ delayedRead wp dive := by
    unfold delayedRead; nlinarith
  have hb : delayedRead wp dive ≤ (wp : ℚ) + 1000 := by
    unfold delayedRead; nlinarith
  have hc : 0 ≤ delayedRead wp dive := le_trans hwpn ha
  refine ⟨ha, hb, hc, ?_⟩
  unfold wrapPos
  rw [if_neg (not_lt.mpr hc)]

theorem delayed_read_never_negative_witness :
    ((-1 : ℚ) ≤ -1/2 ∧ (-1/2 : ℚ) ≤ 0) ∧
    ((5 : ℚ) ≤ delayedRead 5 (-1/2) ∧
     delayedRead 5 (-1/2) ≤ (5 : ℚ) + 1000 ∧
     0 ≤ delayedRead 5 (-1/2) ∧
     wrapPos (delayedRead 5 (-1/2)) 132300 = qmod (delayedRead 5 (-1/2)) 132300) := by
  refine ⟨by norm_num, ?_⟩
  have := delayed_read_never_negative 5 132300 (-1/2) (by norm_num) (by norm_num)
  exact_mod_cast this

end Whammy
